import Mathlib

/-!
Verification development for the card-identifier pipeline
(`identifier/warp.py` and `identifier/set_matcher.py`).

The pure logic of the pipeline is embedded shallowly:

* integer pixel arithmetic is modelled with `Nat` (Python `int()` of a
  nonnegative float product `c * dim` with `c = num/den` is `num * dim / den`
  in `Nat`);
* float arithmetic (similarity scores, thresholds, aspect ratios) is
  modelled with `ℚ`;
* calls into OpenCV / FAISS / CLIP (contour detection, polygon
  approximation, vector search, embedding) are external collaborators and
  are passed in as explicit arguments ("oracles"); the embedded functions
  reproduce exactly how the Python code consumes their results;
* fallible operations (Python `list[row]` indexing that can raise
  `IndexError`) return `Option`;
* functions that the spec requires to invoke a collaborator a certain
  number of times additionally return an invocation log or count.
-/

/-- A pixel rectangle `(x1, y1, x2, y2)`, as used for the fixed ROI catalog
in `CropExtractor.extract`. -/
structure Rect where
  x1 : Nat
  y1 : Nat
  x2 : Nat
  y2 : Nat
deriving DecidableEq, Repr

/-- Python `int(c * dim)` for a nonnegative fractional coefficient
`c = num / den`: truncation toward zero equals floor equals `Nat` division. -/
def frac (num den dim : Nat) : Nat := num * dim / den

/-- Pixel area of an ROI slice `warped[y1:y2, x1:x2]` (in-bounds, `x2 ≥ x1`,
`y2 ≥ y1` for every catalog entry at the canonical size). -/
def rectArea (r : Rect) : Nat := (r.x2 - r.x1) * (r.y2 - r.y1)

/-- The fixed pokemon ROI catalog of `CropExtractor.extract` (15 entries),
instantiated at image width `w` and height `h`. -/
def pokemonRois (w h : Nat) : List Rect :=
  [ ⟨frac 80 100 w, frac 52 100 h, frac 96 100 w, frac 66 100 h⟩,
    ⟨frac 75 100 w, frac 48 100 h, frac 98 100 w, frac 70 100 h⟩,
    ⟨frac 78 100 w, frac 45 100 h, frac 95 100 w, frac 60 100 h⟩,
    ⟨frac 40 100 w, frac 92 100 h, frac 60 100 w, frac 98 100 h⟩,
    ⟨frac 35 100 w, frac 90 100 h, frac 65 100 w, frac 99 100 h⟩,
    ⟨frac 30 100 w, frac 88 100 h, frac 70 100 w, frac 98 100 h⟩,
    ⟨frac 75 100 w, frac 88 100 h, frac 98 100 w, frac 98 100 h⟩,
    ⟨frac 70 100 w, frac 85 100 h, frac 98 100 w, frac 99 100 h⟩,
    ⟨frac 80 100 w, frac 90 100 h, frac 96 100 w, frac 97 100 h⟩,
    ⟨frac 1 100 w, frac 89 100 h, frac 15 100 w, frac 97 100 h⟩,
    ⟨frac 1 100 w, frac 87 100 h, frac 35 100 w, frac 98 100 h⟩,
    ⟨frac 1 100 w, frac 90 100 h, frac 10 100 w, frac 96 100 h⟩,
    ⟨frac 85 100 w, frac 2 100 h, frac 98 100 w, frac 8 100 h⟩,
    ⟨frac 80 100 w, frac 1 100 h, frac 99 100 w, frac 10 100 h⟩,
    ⟨frac 1 100 w, frac 92 100 h, frac 20 100 w, frac 99 100 h⟩ ]

/-- The fixed MTG ROI catalog of `CropExtractor.extract` (8 entries). -/
def mtgRois (w h : Nat) : List Rect :=
  [ ⟨frac 60 100 w, frac 42 100 h, frac 98 100 w, frac 58 100 h⟩,
    ⟨frac 65 100 w, frac 45 100 h, frac 95 100 w, frac 55 100 h⟩,
    ⟨frac 60 100 w, frac 35 100 h, frac 98 100 w, frac 70 100 h⟩,
    ⟨frac 70 100 w, frac 88 100 h, frac 98 100 w, frac 98 100 h⟩,
    ⟨frac 1 100 w, frac 90 100 h, frac 30 100 w, frac 98 100 h⟩,
    ⟨frac 75 100 w, frac 38 100 h, frac 99 100 w, frac 62 100 h⟩,
    ⟨frac 55 100 w, frac 40 100 h, frac 85 100 w, frac 60 100 h⟩,
    ⟨frac 58 100 w, frac 48 100 h, frac 92 100 w, frac 56 100 h⟩ ]

/-- Game dispatch of `CropExtractor.extract`: `if game == "pokemon"` selects
the pokemon catalog, every other game uses the MTG catalog. -/
def fixedRois (game : String) (w h : Nat) : List Rect :=
  if game = "pokemon" then pokemonRois w h else mtgRois w h

/-- The region `crops[-1]` on which the adaptive contour step is run: the
last entry of the fixed catalog. -/
def lastRoi (game : String) (w h : Nat) : Rect :=
  ((fixedRois game w h).getLast?).getD ⟨0, 0, 0, 0⟩

/-- The box-list core of `CropExtractor.extract`.  `contours r` stands for
the external `_contour_proposals` call (OpenCV adaptive threshold + contour
extraction) on the sub-image of region `r`; the Python code appends at most
6 of its proposals after the fixed ROIs and truncates the combined list to
`max_crops = 10`.  Returns the boxes of the returned crops together with
the log of regions the contour step was invoked on. -/
def extractBoxes (game : String) (w h : Nat) (contours : Rect → List Rect) :
    List Rect × List Rect :=
  let rois := fixedRois game w h
  match rois.getLast? with
  | none => ([], [])
  | some primary =>
      let contourCrops := contours primary
      let crops := rois ++ contourCrops.take 6
      (crops.take 10, [primary])

/-- The per-contour filter of `CropExtractor._contour_proposals`, applied to
a contour with bounding box width `w`, height `h` and contour area `cnt`
(floats modelled as ℚ): bounding-box area in `[250, 25000]`, both sides at
least 12, aspect ratio in `[0.4, 2.2]`, fill ratio at least `0.20`. -/
def contourKept (w h : Nat) (cnt : ℚ) : Bool :=
  let area : Nat := w * h
  if area < 250 ∨ area > 25000 then false
  else if w < 12 ∨ h < 12 then false
  else if ((w : ℚ) / (h : ℚ) < 0.4 ∨ (w : ℚ) / (h : ℚ) > 2.2) then false
  else if (cnt / (area : ℚ) < 0.20) then false
  else true

/-- The coordinate sum `x + y` used by `_order_points` (`pts.sum(axis=1)`). -/
def psum (p : ℚ × ℚ) : ℚ := p.1 + p.2

/-- The coordinate difference `y - x` used by `_order_points`
(`np.diff(pts, axis=1)`). -/
def pdiff (p : ℚ × ℚ) : ℚ := p.2 - p.1

/-- First element attaining the minimum of `g`, as `np.argmin` (ties resolve
to the earliest index). -/
def firstMinBy (g : α → ℚ) : List α → Option α
  | [] => none
  | a :: l =>
    match firstMinBy g l with
    | none => some a
    | some b => if g a ≤ g b then some a else some b

/-- First element attaining the maximum of `g`, as `np.argmax` (ties resolve
to the earliest index). -/
def firstMaxBy (g : α → ℚ) : List α → Option α
  | [] => none
  | a :: l =>
    match firstMaxBy g l with
    | none => some a
    | some b => if g b ≤ g a then some a else some b

/-- `_order_points`: `(rect[0], rect[1], rect[2], rect[3])` =
(argmin of sum, argmin of diff, argmax of sum, argmax of diff), i.e.
(top-left, top-right, bottom-right, bottom-left).  `none` only on the empty
list (the code is always called with 4 points). -/
def order_points (pts : List (ℚ × ℚ)) : Option ((ℚ × ℚ) × (ℚ × ℚ) × (ℚ × ℚ) × (ℚ × ℚ)) :=
  match firstMinBy psum pts, firstMinBy pdiff pts, firstMaxBy psum pts, firstMaxBy pdiff pts with
  | some tl, some tr, some br, some bl => some (tl, tr, br, bl)
  | _, _, _, _ => none

/-- Result of one external contour found by `cv2.findContours` in
`warp_card`, as the Python loop consumes it: its raw contour area (the sort
key), the vertex count of its `approxPolyDP` polygon, and that polygon's
contour area. -/
structure WarpContour where
  cntArea : ℚ
  approxLen : Nat
  approxArea : ℚ
deriving DecidableEq, Repr

/-- Debug dictionary of `warp_card` (the fields the spec talks about). -/
structure WarpDebug where
  found_quad : Bool
  out_w : Nat
  out_h : Nat
  fallback : Option String
  quadAreaFrac : Option ℚ
deriving DecidableEq, Repr

/-- Observable outcome of `warp_card`: the dimensions of the returned image,
the debug record, whether the quad-detection stage (downscale, Canny,
contour loop) ran at all, and whether the output came from a direct
`cv2.resize` of the source image. -/
structure WarpOut where
  outWidth : Nat
  outHeight : Nat
  debug : WarpDebug
  ranDetection : Bool
  directResize : Bool
deriving DecidableEq, Repr

/-- Stable insertion into a descending-sorted list: the new element goes
before the first strictly smaller key, i.e. after all earlier elements with
an equal key. -/
def insertDescBy (key : α → ℚ) (x : α) : List α → List α
  | [] => [x]
  | y :: l => if key y ≤ key x then x :: y :: l else y :: insertDescBy key x l

/-- Stable sort, descending by `key`; the unique output of Python's stable
`sorted(..., reverse=True)`. -/
def sortDescBy (key : α → ℚ) : List α → List α
  | [] => []
  | x :: l => insertDescBy key x (sortDescBy key l)

/-- The quad-selection loop of `warp_card`: walk the (sorted) contours in
order, accept the first one whose polygon approximation has exactly 4
vertices and whose area is strictly greater than `0.1 * image_area`. -/
def pickQuad (imageArea : ℚ) : List WarpContour → Option WarpContour
  | [] => none
  | c :: rest =>
      if c.approxLen = 4 ∧ c.approxArea > 0.1 * imageArea then some c
      else pickQuad imageArea rest

/-- `warp_card(bgr, out_size)` for an input of width `w`, height `h`;
`contoursFound` stands for the result of the external
`cv2.findContours(edges, ...)` call on the downscaled working image (only
reached on the general path). -/
def warp_card (w h outW outH : Nat) (contoursFound : List WarpContour) : WarpOut :=
  let aspect : ℚ := (w : ℚ) / (h : ℚ)
  if 0.65 ≤ aspect ∧ aspect ≤ 0.80 then
    { outWidth := outW, outHeight := outH,
      debug := { found_quad := false, out_w := outW, out_h := outH,
                 fallback := some "direct-resize", quadAreaFrac := none },
      ranDetection := false, directResize := true }
  else
    let scale : ℚ := 800 / ((max h w : Nat) : ℚ)
    let rw : Nat := ⌊(w : ℚ) * scale⌋.toNat
    let rh : Nat := ⌊(h : ℚ) * scale⌋.toNat
    let contours := (sortDescBy (fun c => c.cntArea) contoursFound).take 25
    let imageArea : ℚ := ((rh * rw : Nat) : ℚ)
    match pickQuad imageArea contours with
    | some c =>
        { outWidth := outW, outHeight := outH,
          debug := { found_quad := true, out_w := outW, out_h := outH,
                     fallback := none, quadAreaFrac := some (c.approxArea / imageArea) },
          ranDetection := true, directResize := false }
    | none =>
        if contours.isEmpty then
          { outWidth := outW, outHeight := outH,
            debug := { found_quad := false, out_w := outW, out_h := outH,
                       fallback := some "no-contours", quadAreaFrac := none },
            ranDetection := true, directResize := true }
        else
          { outWidth := outW, outHeight := outH,
            debug := { found_quad := false, out_w := outW, out_h := outH,
                       fallback := some "minAreaRect", quadAreaFrac := none },
            ranDetection := true, directResize := false }

/-- `_cosine_from_l2_distance`: similarity `1 - d / 2`. -/
def cosine_from_l2_distance (d : ℚ) : ℚ := 1 - d / 2

/-- Update of the Python dict `per_set_best` with a new `(set_id, score)`
observation: a fresh key is appended, an existing key keeps its place and is
overwritten only when the new score is strictly greater. -/
def updBest : List (String × ℚ) → String → ℚ → List (String × ℚ)
  | [], sid, sc => [(sid, sc)]
  | (s, v) :: rest, sid, sc =>
      if s = sid then (if sc > v then (s, sc) :: rest else (s, v) :: rest)
      else (s, v) :: updBest rest sid sc

/-- The flattened `(distance, row)` iteration order of the double loop in
`SetMatcher._search` over the FAISS result matrices. -/
def allPairs (dists : List (List ℚ)) (idxs : List (List Int)) : List (ℚ × Int) :=
  ((dists.zip idxs).map (fun p => p.1.zip p.2)).flatten

/-- The aggregation loop of `SetMatcher._search`: skip negative rows, look
the row up in the metadata table (`none` models a Python `IndexError` on an
out-of-range row), and keep the per-set maximum similarity. -/
def aggPairs (meta : List String) : List (ℚ × Int) → List (String × ℚ) →
    Option (List (String × ℚ))
  | [], m => some m
  | (d, r) :: ps, m =>
      if r < 0 then aggPairs meta ps m
      else
        match meta.get? r.toNat with
        | none => none
        | some sid => aggPairs meta ps (updBest m sid (cosine_from_l2_distance d))

/-- The per-crop top-vote loop of `SetMatcher._search`: for each crop take
the rank-0 row (`-1` when there are no columns), skip it when negative,
otherwise record the row's `set_id`. -/
def perCropTop (meta : List String) : List (List Int) → Option (List String)
  | [] => some []
  | rs :: rest =>
      match rs.head? with
      | none => perCropTop meta rest
      | some r =>
          if r < 0 then perCropTop meta rest
          else
            match meta.get? r.toNat with
            | none => none
            | some sid => (perCropTop meta rest).map (fun l => sid :: l)

/-- `SetMatcher._search` on the raw FAISS result matrices: max-aggregate
per set, sort descending by score (stable), truncate to `k`, and collect
the per-crop top votes. -/
def search (meta : List String) (dists : List (List ℚ)) (idxs : List (List Int))
    (k : Nat) : Option (List (String × ℚ) × List String) :=
  match aggPairs meta (allPairs dists idxs) [] with
  | none => none
  | some best =>
      match perCropTop meta idxs with
      | none => none
      | some pct => some (((sortDescBy (fun p => p.2) best).take k, pct))

/-- Clamp to `[0, 1]`, written as the spec writes it. -/
def clamp01 (x : ℚ) : ℚ := max 0 (min 1 x)

/-- `SetMatcher._confidence`, literally: `(confidence, low_confidence)` from
the ranked candidate list and the per-crop top votes. -/
def confidence (candidates : List (String × ℚ)) (per_crop_top : List String) :
    ℚ × Bool :=
  match candidates with
  | [] => (0, true)
  | c1 :: rest =>
      let top1 : ℚ := c1.2
      let top2 : ℚ := match rest with | [] => 0 | c2 :: _ => c2.2
      let margin : ℚ := top1 - top2
      let best := c1.1
      let stability : ℚ :=
        if per_crop_top = [] then 1
        else ((per_crop_top.countP (fun s => s = best) : Nat) : ℚ) /
          ((per_crop_top.length : Nat) : ℚ)
      let low : Bool := top1 < 0.28 ∨ margin < 0.03 ∨ stability < 0.60
      let conf : ℚ := max 0 (min 1 ((top1 - 0.15) * 1.2))
      let conf : ℚ := max conf (max 0 (min 1 (margin * 10)))
      (conf, low)

/-- Result record of `SetMatcher.identify` (the content fields; timings and
debug are external). -/
structure IdentifyResult where
  best_set_id : String
  conf : ℚ
  low_confidence : Bool
  candidates : List (String × ℚ)
  per_crop_top : List String
deriving DecidableEq, Repr

/-- `SetMatcher.identify`.  `loaded` models `game ∈ self._indexes`; `crops`
is the region-proposer output; `embed` and `indexSearch` are the external
CLIP and FAISS collaborators.  The result is paired with the number of
`embed` calls and of index `search` calls performed, and errors are
explicit: `Except.error` models the raised `RuntimeError` (missing index)
or a propagated `IndexError` (metadata row out of range, impossible for a
well-formed index). -/
def identify {γ ε : Type} (loaded : Bool) (crops : List γ)
    (embed : List γ → List ε)
    (indexSearch : List ε → Nat → List (List ℚ) × List (List Int))
    (meta : List String) (k : Nat) :
    Except String (IdentifyResult × Nat × Nat) :=
  if loaded = false then Except.error "index for game not loaded"
  else if crops.isEmpty then
    Except.ok ({ best_set_id := "", conf := 0, low_confidence := true,
                 candidates := [], per_crop_top := [] }, 0, 0)
  else
    let embeddings := embed crops
    let res := indexSearch embeddings k
    match search meta res.1 res.2 k with
    | none => Except.error "metadata row out of range"
    | some (candidates, pct) =>
        let best := match candidates with | [] => "" | c :: _ => c.1
        let cl := confidence candidates pct
        Except.ok ({ best_set_id := best, conf := cl.1, low_confidence := cl.2,
                     candidates := candidates, per_crop_top := pct }, 1, 1)

/-- Association-list lookup, the `per_set_best.get(set_id)` of the Python
dict model. -/
def alookup (sid : String) : List (String × ℚ) → Option ℚ
  | [] => none
  | (s, v) :: l => if s = sid then some v else alookup sid l

/-- Maximum of a list of rationals, `none` on the empty list. -/
def listMax : List ℚ → Option ℚ
  | [] => none
  | x :: l =>
      match listMax l with
      | none => some x
      | some m => some (max x m)

/-- Merge of two optional maxima. -/
def optMax : Option ℚ → Option ℚ → Option ℚ
  | none, b => b
  | some a, none => some a
  | some a, some b => some (max a b)

/-- All similarities contributed to a given `set_id` by a flattened
`(distance, row)` pair list: negative rows are skipped, the row's metadata
entry must equal `sid`. -/
def scoresFor (meta : List String) (ps : List (ℚ × Int)) (sid : String) : List ℚ :=
  ps.filterMap (fun (p : ℚ × Int) =>
    if p.2 < 0 then none
    else
      match meta.get? (Int.toNat p.2) with
      | none => none
      | some s => if s = sid then some (cosine_from_l2_distance p.1) else none)

theorem insertDescBy_perm (key : α → ℚ) (x : α) (l : List α) :
    (insertDescBy key x l).Perm (x :: l) := by
  induction l with
  | nil => simp [insertDescBy]
  | cons y l ih =>
      simp only [insertDescBy]
      split
      · exact List.Perm.refl _
      · exact (ih.cons y).trans (List.Perm.swap x y l)

theorem sortDescBy_perm (key : α → ℚ) (l : List α) : (sortDescBy key l).Perm l := by
  induction l with
  | nil => simp [sortDescBy]
  | cons x l ih => exact (insertDescBy_perm key x _).trans (ih.cons x)

/-- C1 counterexample: on the canonical 744x1040 size the pokemon catalog
has 15 fixed regions, but `extract` truncates the combined crop list to
`max_crops = 10`, so even with no contour proposals (as on an all-black or
all-white image) the returned candidate list is shorter than the fixed
catalog: the claim "at least as many candidates as fixed regions" fails. -/
theorem propose_blank_pokemon_cap_counterexample :
    (extractBoxes "pokemon" 744 1040 (fun _ => [])).1.length = 10 ∧
      (pokemonRois 744 1040).length = 15 ∧
      ¬ (pokemonRois 744 1040).length ≤
          (extractBoxes "pokemon" 744 1040 (fun _ => [])).1.length := by
  decide

/-- C1 amended: whatever the contour-proposal step returns (in particular
the empty list produced on a blank image), `propose("pokemon", ...)` at the
canonical 744x1040 size returns exactly 10 candidates, namely the first 10
fixed-region crops; the remaining 5 fixed regions are dropped by the cap. -/
theorem propose_pokemon_cap_ten (cont : Rect → List Rect) :
    (extractBoxes "pokemon" 744 1040 cont).1 = (pokemonRois 744 1040).take 10 ∧
      (extractBoxes "pokemon" 744 1040 cont).1.length = 10 :=
  ⟨rfl, rfl⟩

/-- C2 counterexample: at the canonical 744x1040 size the region actually
fed to the adaptive contour step (the last catalog entry,
`(7, 956, 148, 1029)`, area 10293) is strictly smaller than another catalog
entry (`(558, 499, 729, 728)`, area 39159), so the contour step's input is
not the largest fixed region by pixel area. -/
theorem contour_region_not_largest_counterexample :
    (extractBoxes "pokemon" 744 1040 (fun _ => [])).2 = [⟨7, 956, 148, 1029⟩] ∧
      (⟨558, 499, 729, 728⟩ : Rect) ∈ pokemonRois 744 1040 ∧
      rectArea (⟨7, 956, 148, 1029⟩ : Rect) < rectArea ⟨558, 499, 729, 728⟩ := by
  decide

/-- C2 amended: for every game, image size and contour outcome, the
adaptive contour-proposal step is invoked exactly once, and its input
region is the last entry of that game's fixed-region catalog (the
designated catch-all region), not the largest one. -/
theorem contour_step_once_on_last_region (game : String) (w h : Nat)
    (cont : Rect → List Rect) :
    (extractBoxes game w h cont).2 = [lastRoi game w h] := by
  unfold extractBoxes lastRoi fixedRois
  by_cases hg : game = "pokemon"
  · simp only [if_pos hg, pokemonRois]
    rfl
  · simp only [if_neg hg, mtgRois]
    rfl

/-- C5: when the region proposer yields zero candidate crops, `identify`
returns immediately with an empty, low-confidence result and performs zero
embedder calls and zero index-search calls. -/
theorem identify_zero_candidates_early_return {γ ε : Type}
    (embed : List γ → List ε)
    (indexSearch : List ε → Nat → List (List ℚ) × List (List Int))
    (meta : List String) (k : Nat) :
    identify true ([] : List γ) embed indexSearch meta k =
      Except.ok ({ best_set_id := "", conf := 0, low_confidence := true,
                   candidates := [], per_crop_top := [] }, 0, 0) :=
  rfl

/-- C7: for every input whose width/height ratio lies in `[0.65, 0.80]`,
`warp_card` takes the fast path: no quad detection runs, the debug fallback
is "direct-resize", the output is a direct resize, and the output has
exactly the requested dimensions. -/
theorem warp_fast_path_in_band (w h outW outH : Nat) (cs : List WarpContour)
    (hl : (0.65 : ℚ) ≤ (w : ℚ) / (h : ℚ)) (hu : (w : ℚ) / (h : ℚ) ≤ 0.80) :
    warp_card w h outW outH cs =
      { outWidth := outW, outHeight := outH,
        debug := { found_quad := false, out_w := outW, out_h := outH,
                   fallback := some "direct-resize", quadAreaFrac := none },
        ranDetection := false, directResize := true } := by
  simp only [warp_card]
  rw [if_pos ⟨hl, hu⟩]

/-- C7 witness: a 744x1040 input (ratio 93/130 which is about 0.715) takes
the fast path. -/
theorem warp_fast_path_in_band_witness :
    warp_card 744 1040 744 1040 [] =
      { outWidth := 744, outHeight := 1040,
        debug := { found_quad := false, out_w := 744, out_h := 1040,
                   fallback := some "direct-resize", quadAreaFrac := none },
        ranDetection := false, directResize := true } :=
  warp_fast_path_in_band 744 1040 744 1040 [] (by norm_num) (by norm_num)

/-- C9: the code gates detected quads with a strict inequality
(`quad_area > 0.1 * image_area`), so a 4-vertex polygon whose area equals
exactly 10% of the working image area is rejected, contradicting the claim
(and the code's own comment) that at-least-10% qualifies.  Concretely: for
a 1600x800 input the working image is 800x400 (area 320000); a single
4-vertex contour of area exactly 32000 is rejected and the minAreaRect
fallback fires instead. -/
theorem quad_gate_rejects_exact_ten_percent :
    (0.1 : ℚ) * ((400 * 800 : Nat) : ℚ) = 32000 ∧
      pickQuad ((400 * 800 : Nat) : ℚ) [⟨32000, 4, 32000⟩] = none ∧
      warp_card 1600 800 744 1040 [⟨32000, 4, 32000⟩] =
        { outWidth := 744, outHeight := 1040,
          debug := { found_quad := false, out_w := 744, out_h := 1040,
                     fallback := some "minAreaRect", quadAreaFrac := none },
          ranDetection := true, directResize := false } := by
  refine ⟨by norm_num, by norm_num [pickQuad], ?_⟩
  norm_num [warp_card, sortDescBy, insertDescBy, pickQuad]
  simp
  norm_num

theorem mem_of_firstMinBy {g : α → ℚ} {l : List α} {a : α}
    (h : firstMinBy g l = some a) : a ∈ l := by
  induction l generalizing a with
  | nil => exact Option.noConfusion h
  | cons x l ih =>
      simp only [firstMinBy] at h
      cases hr : firstMinBy g l with
      | none =>
          rw [hr] at h
          change some x = some a at h
          cases Option.some.inj h
          exact List.mem_cons_self _ _
      | some b =>
          rw [hr] at h
          change (if g x ≤ g b then some x else some b) = some a at h
          by_cases hc : g x ≤ g b
          · rw [if_pos hc] at h
            cases Option.some.inj h
            exact List.mem_cons_self _ _
          · rw [if_neg hc] at h
            cases Option.some.inj h
            exact List.mem_cons_of_mem _ (ih hr)

theorem mem_of_firstMaxBy {g : α → ℚ} {l : List α} {a : α}
    (h : firstMaxBy g l = some a) : a ∈ l := by
  induction l generalizing a with
  | nil => exact Option.noConfusion h
  | cons x l ih =>
      simp only [firstMaxBy] at h
      cases hr : firstMaxBy g l with
      | none =>
          rw [hr] at h
          change some x = some a at h
          cases Option.some.inj h
          exact List.mem_cons_self _ _
      | some b =>
          rw [hr] at h
          change (if g b ≤ g x then some x else some b) = some a at h
          by_cases hc : g b ≤ g x
          · rw [if_pos hc] at h
            cases Option.some.inj h
            exact List.mem_cons_self _ _
          · rw [if_neg hc] at h
            cases Option.some.inj h
            exact List.mem_cons_of_mem _ (ih hr)

theorem firstMinBy_eq_of_unique {g : α → ℚ} {l : List α} {a : α}
    (ha : a ∈ l) (hu : ∀ y ∈ l, y ≠ a → g a < g y) : firstMinBy g l = some a := by
  induction l with
  | nil => simp at ha
  | cons x l ih =>
      by_cases hxa : x = a
      · subst hxa
        simp only [firstMinBy]
        cases hr : firstMinBy g l with
        | none => rfl
        | some b =>
            have hb : b ∈ l := mem_of_firstMinBy hr
            show (if g x ≤ g b then some x else some b) = some x
            by_cases hbx : b = x
            · rw [if_pos (le_of_eq (congrArg g hbx.symm))]
            · rw [if_pos (hu b (List.mem_cons_of_mem _ hb) hbx).le]
      · have hal : a ∈ l := by
          rcases List.mem_cons.mp ha with h | h
          · exact absurd h.symm hxa
          · exact h
        have ihr : firstMinBy g l = some a :=
          ih hal (fun y hy hya => hu y (List.mem_cons_of_mem _ hy) hya)
        simp only [firstMinBy, ihr]
        show (if g x ≤ g a then some x else some a) = some a
        rw [if_neg (not_le.mpr (hu x (List.mem_cons_self _ _) hxa))]

theorem firstMaxBy_eq_of_unique {g : α → ℚ} {l : List α} {a : α}
    (ha : a ∈ l) (hu : ∀ y ∈ l, y ≠ a → g y < g a) : firstMaxBy g l = some a := by
  induction l with
  | nil => simp at ha
  | cons x l ih =>
      by_cases hxa : x = a
      · subst hxa
        simp only [firstMaxBy]
        cases hr : firstMaxBy g l with
        | none => rfl
        | some b =>
            have hb : b ∈ l := mem_of_firstMaxBy hr
            show (if g b ≤ g x then some x else some b) = some x
            by_cases hbx : b = x
            · rw [if_pos (le_of_eq (congrArg g hbx))]
            · rw [if_pos (hu b (List.mem_cons_of_mem _ hb) hbx).le]
      · have hal : a ∈ l := by
          rcases List.mem_cons.mp ha with h | h
          · exact absurd h.symm hxa
          · exact h
        have ihr : firstMaxBy g l = some a :=
          ih hal (fun y hy hya => hu y (List.mem_cons_of_mem _ hy) hya)
        simp only [firstMaxBy, ihr]
        show (if g a ≤ g x then some x else some a) = some a
        rw [if_neg (not_le.mpr (hu x (List.mem_cons_self _ _) hxa))]

/-- C8 counterexample: the parallelogram `(0,1), (1,0), (3,2), (2,3)` has
two vertices of equal minimal coordinate sum (and equal maximal sum), so
the argmin/argmax tie-breaks to the first occurrence and the ordering
changes when the same 4 vertices are presented starting from the next
vertex: the ordering is not invariant under cyclic relabeling. -/
theorem order_points_tie_counterexample :
    order_points (([((0 : ℚ), (1 : ℚ)), (1, 0), (3, 2), (2, 3)]).rotate 1) ≠
      order_points [((0 : ℚ), (1 : ℚ)), (1, 0), (3, 2), (2, 3)] := by
  norm_num [order_points, firstMinBy, firstMaxBy, psum, pdiff, List.rotate]

/-- C8 amended: the point ordering is invariant under cyclic relabeling
for every point list whose coordinate-sum minimizer and maximizer and
coordinate-difference minimizer and maximizer are each unique (in
particular for every quadrilateral with no ties in these four
functionals); the degenerate tie cases of the counterexample are the only
exception. -/
theorem order_points_rotation_invariant (pts : List (ℚ × ℚ)) (n : Nat)
    (a b c d : ℚ × ℚ)
    (ham : a ∈ pts) (hbm : b ∈ pts) (hcm : c ∈ pts) (hdm : d ∈ pts)
    (hua : ∀ y ∈ pts, y ≠ a → psum a < psum y)
    (hub : ∀ y ∈ pts, y ≠ b → psum y < psum b)
    (huc : ∀ y ∈ pts, y ≠ c → pdiff c < pdiff y)
    (hud : ∀ y ∈ pts, y ≠ d → pdiff y < pdiff d) :
    order_points (pts.rotate n) = order_points pts := by
  have h1 : firstMinBy psum pts = some a := firstMinBy_eq_of_unique ham hua
  have h2 : firstMaxBy psum pts = some b := firstMaxBy_eq_of_unique hbm hub
  have h3 : firstMinBy pdiff pts = some c := firstMinBy_eq_of_unique hcm huc
  have h4 : firstMaxBy pdiff pts = some d := firstMaxBy_eq_of_unique hdm hud
  have h5 : firstMinBy psum (pts.rotate n) = some a :=
    firstMinBy_eq_of_unique (List.mem_rotate.mpr ham)
      (fun y hy => hua y (List.mem_rotate.mp hy))
  have h6 : firstMaxBy psum (pts.rotate n) = some b :=
    firstMaxBy_eq_of_unique (List.mem_rotate.mpr hbm)
      (fun y hy => hub y (List.mem_rotate.mp hy))
  have h7 : firstMinBy pdiff (pts.rotate n) = some c :=
    firstMinBy_eq_of_unique (List.mem_rotate.mpr hcm)
      (fun y hy => huc y (List.mem_rotate.mp hy))
  have h8 : firstMaxBy pdiff (pts.rotate n) = some d :=
    firstMaxBy_eq_of_unique (List.mem_rotate.mpr hdm)
      (fun y hy => hud y (List.mem_rotate.mp hy))
  simp only [order_points, h1, h2, h3, h4, h5, h6, h7, h8]

/-- C8 witness: the axis-aligned square `(0,0), (100,0), (100,100), (0,100)`
has unique extremizers for all four functionals, so presenting it starting
from its third vertex orders identically. -/
theorem order_points_rotation_invariant_witness :
    order_points (([((0 : ℚ), (0 : ℚ)), (100, 0), (100, 100), (0, 100)]).rotate 2) =
      order_points [((0 : ℚ), (0 : ℚ)), (100, 0), (100, 100), (0, 100)] :=
  order_points_rotation_invariant _ 2 (0, 0) (100, 100) (100, 0) (0, 100)
    (by norm_num) (by norm_num) (by norm_num) (by norm_num)
    (by intro y hy hne; fin_cases hy <;> simp_all [psum])
    (by intro y hy hne; fin_cases hy <;> simp_all [psum])
    (by intro y hy hne; fin_cases hy <;> simp_all [pdiff])
    (by intro y hy hne; fin_cases hy <;> simp_all [pdiff])

theorem alookup_updBest_self (m : List (String × ℚ)) (sid : String) (sc : ℚ) :
    alookup sid (updBest m sid sc) =
      some (match alookup sid m with | none => sc | some v => max v sc) := by
  induction m with
  | nil => simp [updBest, alookup]
  | cons p m ih =>
      obtain ⟨s, v⟩ := p
      by_cases hs : s = sid
      · subst hs
        simp only [updBest, alookup, if_pos rfl]
        by_cases hv : sc > v
        · rw [if_pos hv]
          simp [alookup, max_eq_right hv.le]
        · rw [if_neg hv]
          simp [alookup, max_eq_left (not_lt.mp hv)]
      · simp only [updBest, alookup, if_neg hs]
        exact ih

theorem alookup_updBest_other (m : List (String × ℚ)) {s sid : String} (sc : ℚ)
    (hne : s ≠ sid) : alookup s (updBest m sid sc) = alookup s m := by
  induction m with
  | nil =>
      have h : ¬ sid = s := fun h => hne h.symm
      simp [updBest, alookup, h]
  | cons p m ih =>
      obtain ⟨a, v⟩ := p
      by_cases ha : a = sid
      · subst ha
        have has : ¬ a = s := fun h => hne h.symm
        show alookup s (if a = a then (if sc > v then (a, sc) :: m else (a, v) :: m)
              else (a, v) :: updBest m a sc) = alookup s ((a, v) :: m)
        rw [if_pos rfl]
        by_cases hv : sc > v
        · rw [if_pos hv]
          simp [alookup, has]
        · rw [if_neg hv]
      · simp only [updBest, if_neg ha, alookup]
        by_cases has : a = s
        · rw [if_pos has, if_pos has]
        · rw [if_neg has, if_neg has]
          exact ih

theorem updBest_map_fst (m : List (String × ℚ)) (sid : String) (sc : ℚ) :
    (updBest m sid sc).map Prod.fst =
      if sid ∈ m.map Prod.fst then m.map Prod.fst else m.map Prod.fst ++ [sid] := by
  induction m with
  | nil => simp [updBest]
  | cons p m ih =>
      obtain ⟨a, v⟩ := p
      by_cases ha : a = sid
      · subst ha
        simp only [updBest, if_pos rfl]
        by_cases hv : sc > v
        · rw [if_pos hv]
          simp
        · rw [if_neg hv]
          simp
      · have hsa : sid ≠ a := fun h => ha h.symm
        simp only [updBest, if_neg ha, List.map_cons, ih]
        by_cases hm : sid ∈ m.map Prod.fst
        · simp [hm, hsa]
        · simp [hm, hsa]

theorem updBest_fst_nodup {m : List (String × ℚ)} (hm : (m.map Prod.fst).Nodup)
    (sid : String) (sc : ℚ) : ((updBest m sid sc).map Prod.fst).Nodup := by
  rw [updBest_map_fst]
  by_cases h : sid ∈ m.map Prod.fst
  · rwa [if_pos h]
  · rw [if_neg h]
    simp [List.nodup_append, hm, h]

theorem mem_fst_updBest {m : List (String × ℚ)} {sid s : String} {sc : ℚ}
    (h : s ∈ (updBest m sid sc).map Prod.fst) : s ∈ m.map Prod.fst ∨ s = sid := by
  rw [updBest_map_fst] at h
  by_cases hc : sid ∈ m.map Prod.fst
  · rw [if_pos hc] at h
    exact Or.inl h
  · rw [if_neg hc] at h
    rcases List.mem_append.mp h with h1 | h1
    · exact Or.inl h1
    · exact Or.inr (by simpa using h1)

theorem alookup_of_mem {l : List (String × ℚ)} (hnd : (l.map Prod.fst).Nodup)
    {c : String × ℚ} (hc : c ∈ l) : alookup c.1 l = some c.2 := by
  induction l with
  | nil => simp at hc
  | cons p l ih =>
      rcases List.mem_cons.mp hc with h | hm
      · subst h
        simp [alookup]
      · obtain ⟨a, v⟩ := p
        simp only [alookup]
        by_cases hac : a = c.1
        · exfalso
          have h1 : c.1 ∈ l.map Prod.fst := List.mem_map_of_mem Prod.fst hm
          have h2 : a ∉ l.map Prod.fst := (List.nodup_cons.mp (by simpa using hnd)).1
          exact h2 (hac ▸ h1)
        · rw [if_neg hac]
          exact ih (List.nodup_cons.mp (by simpa using hnd)).2 hm

theorem aggPairs_lookup (meta : List String) (ps : List (ℚ × Int)) :
    ∀ (m out : List (String × ℚ)), aggPairs meta ps m = some out →
      ∀ sid, alookup sid out = optMax (alookup sid m) (listMax (scoresFor meta ps sid)) := by
  induction ps with
  | nil =>
      intro m out h sid
      simp only [aggPairs] at h
      cases Option.some.inj h
      cases halm : alookup sid m <;> simp [scoresFor, listMax, optMax, halm]
  | cons p ps ih =>
      obtain ⟨d, r⟩ := p
      intro m out h sid
      simp only [aggPairs] at h
      by_cases hr : r < 0
      · rw [if_pos hr] at h
        have hsf : scoresFor meta ((d, r) :: ps) sid = scoresFor meta ps sid := by
          simp [scoresFor, List.filterMap_cons, hr]
        rw [hsf]
        exact ih m out h sid
      · rw [if_neg hr] at h
        cases hm : meta.get? (Int.toNat r) with
        | none =>
            rw [hm] at h
            exact Option.noConfusion h
        | some s0 =>
            rw [hm] at h
            have hm2 : meta[Int.toNat r]? = some s0 := by
              rw [← List.get?_eq_getElem?]
              exact hm
            have hrec := ih (updBest m s0 (cosine_from_l2_distance d)) out h sid
            by_cases hs : s0 = sid
            · subst hs
              rw [alookup_updBest_self] at hrec
              have hsf : scoresFor meta ((d, r) :: ps) s0 =
                  cosine_from_l2_distance d :: scoresFor meta ps s0 := by
                simp [scoresFor, List.filterMap_cons, hr, hm2]
              rw [hsf, hrec]
              rcases halm : alookup s0 m with _ | a <;>
                rcases hlm : listMax (scoresFor meta ps s0) with _ | lm <;>
                  simp [optMax, listMax, hlm, halm, max_assoc, max_comm, max_left_comm]
            · have hne : sid ≠ s0 := fun hh => hs hh.symm
              rw [alookup_updBest_other _ _ hne] at hrec
              have hsf : scoresFor meta ((d, r) :: ps) sid = scoresFor meta ps sid := by
                simp [scoresFor, List.filterMap_cons, hr, hm2, hs]
              rw [hsf]
              exact hrec

theorem aggPairs_isSome (meta : List String) (ps : List (ℚ × Int))
    (hb : ∀ p ∈ ps, 0 ≤ p.2 → Int.toNat p.2 < meta.length) :
    ∀ m, (aggPairs meta ps m).isSome = true := by
  induction ps with
  | nil => intro m; simp [aggPairs]
  | cons p ps ih =>
      obtain ⟨d, r⟩ := p
      intro m
      simp only [aggPairs]
      by_cases hr : r < 0
      · rw [if_pos hr]
        exact ih (fun q hq => hb q (List.mem_cons_of_mem _ hq)) m
      · rw [if_neg hr]
        have hlt : Int.toNat r < meta.length :=
          hb (d, r) (List.mem_cons_self _ _) (Int.not_lt.mp hr)
        cases hm : meta.get? (Int.toNat r) with
        | none =>
            exact absurd (List.get?_eq_none.mp hm) (Nat.not_le.mpr hlt)
        | some s0 =>
            exact ih (fun q hq => hb q (List.mem_cons_of_mem _ hq)) _

theorem aggPairs_filter_nonneg (meta : List String) (ps : List (ℚ × Int)) :
    ∀ m, aggPairs meta ps m =
      aggPairs meta (ps.filter (fun p => decide (0 ≤ p.2))) m := by
  induction ps with
  | nil => intro m; rfl
  | cons p ps ih =>
      obtain ⟨d, r⟩ := p
      intro m
      by_cases hr : r < 0
      · have hd : (fun p : ℚ × Int => decide (0 ≤ p.2)) (d, r) = false := by
          simp [Int.not_le.mpr hr]
        rw [List.filter_cons_of_neg (by simpa using hd)]
        simp only [aggPairs, if_pos hr]
        exact ih m
      · have h0 : (0 : Int) ≤ r := Int.not_lt.mp hr
        have hd : (fun p : ℚ × Int => decide (0 ≤ p.2)) (d, r) = true := by simp [h0]
        rw [List.filter_cons_of_pos (by simpa using hd)]
        simp only [aggPairs, if_neg hr]
        cases hm : meta.get? (Int.toNat r) with
        | none => rfl
        | some s0 => exact ih _

theorem aggPairs_fst_mem (meta : List String) (ps : List (ℚ × Int)) :
    ∀ m out, aggPairs meta ps m = some out →
      ∀ s ∈ out.map Prod.fst, s ∈ m.map Prod.fst ∨ s ∈ meta := by
  induction ps with
  | nil =>
      intro m out h s hs
      simp only [aggPairs] at h
      cases Option.some.inj h
      exact Or.inl hs
  | cons p ps ih =>
      obtain ⟨d, r⟩ := p
      intro m out h s hs
      simp only [aggPairs] at h
      by_cases hr : r < 0
      · rw [if_pos hr] at h
        exact ih m out h s hs
      · rw [if_neg hr] at h
        cases hm : meta.get? (Int.toNat r) with
        | none =>
            rw [hm] at h
            exact Option.noConfusion h
        | some s0 =>
            rw [hm] at h
            rcases ih _ out h s hs with h1 | h1
            · rcases mem_fst_updBest h1 with h2 | h2
              · exact Or.inl h2
              · exact Or.inr (h2 ▸ List.get?_mem hm)
            · exact Or.inr h1

theorem aggPairs_fst_nodup (meta : List String) (ps : List (ℚ × Int)) :
    ∀ m out, aggPairs meta ps m = some out →
      (m.map Prod.fst).Nodup → (out.map Prod.fst).Nodup := by
  induction ps with
  | nil =>
      intro m out h hm
      simp only [aggPairs] at h
      cases Option.some.inj h
      exact hm
  | cons p ps ih =>
      obtain ⟨d, r⟩ := p
      intro m out h hm
      simp only [aggPairs] at h
      by_cases hr : r < 0
      · rw [if_pos hr] at h
        exact ih m out h hm
      · rw [if_neg hr] at h
        cases hg : meta.get? (Int.toNat r) with
        | none =>
            rw [hg] at h
            exact Option.noConfusion h
        | some s0 =>
            rw [hg] at h
            exact ih _ out h (updBest_fst_nodup hm s0 _)

theorem perCropTop_isSome (meta : List String) (idxs : List (List Int))
    (hb : ∀ rs ∈ idxs, ∀ r ∈ rs, 0 ≤ r → Int.toNat r < meta.length) :
    (perCropTop meta idxs).isSome = true := by
  induction idxs with
  | nil => simp [perCropTop]
  | cons rs rest ih =>
      have ih2 := ih (fun rs2 h2 => hb rs2 (List.mem_cons_of_mem _ h2))
      simp only [perCropTop]
      cases hh : rs.head? with
      | none => exact ih2
      | some r =>
          change (if r < 0 then perCropTop meta rest
            else match meta.get? (Int.toNat r) with
              | none => none
              | some sid => (perCropTop meta rest).map
                  (fun l => sid :: l)).isSome = true
          by_cases hr : r < 0
          · rw [if_pos hr]
            exact ih2
          · rw [if_neg hr]
            have hlt : Int.toNat r < meta.length :=
              hb rs (List.mem_cons_self _ _) r (List.mem_of_mem_head? hh)
                (Int.not_lt.mp hr)
            cases hm : meta.get? (Int.toNat r) with
            | none =>
                exact absurd (List.get?_eq_none.mp hm) (Nat.not_le.mpr hlt)
            | some sid =>
                change ((perCropTop meta rest).map (fun l => sid :: l)).isSome = true
                simpa using ih2

theorem perCropTop_mem_meta (meta : List String) (idxs : List (List Int)) :
    ∀ out, perCropTop meta idxs = some out → ∀ s ∈ out, s ∈ meta := by
  induction idxs with
  | nil =>
      intro out h s hs
      simp only [perCropTop] at h
      cases Option.some.inj h
      simp at hs
  | cons rs rest ih =>
      intro out h s hs
      simp only [perCropTop] at h
      cases hh : rs.head? with
      | none =>
          rw [hh] at h
          exact ih out h s hs
      | some r =>
          rw [hh] at h
          change (if r < 0 then perCropTop meta rest
            else match meta.get? (Int.toNat r) with
              | none => none
              | some sid => (perCropTop meta rest).map
                  (fun l => sid :: l)) = some out at h
          by_cases hr : r < 0
          · rw [if_pos hr] at h
            exact ih out h s hs
          · rw [if_neg hr] at h
            cases hm : meta.get? (Int.toNat r) with
            | none =>
                rw [hm] at h
                exact Option.noConfusion h
            | some sid =>
                rw [hm] at h
                change (perCropTop meta rest).map (fun l => sid :: l) = some out at h
                cases ho : perCropTop meta rest with
                | none =>
                    rw [ho] at h
                    exact Option.noConfusion h
                | some l0 =>
                    rw [ho] at h
                    change some (sid :: l0) = some out at h
                    have := Option.some.inj h
                    rcases List.mem_cons.mp (this ▸ hs) with h1 | h1
                    · exact h1 ▸ List.get?_mem hm
                    · exact ih l0 ho s h1

theorem allPairs_bound (meta : List String) (dists : List (List ℚ))
    (idxs : List (List Int))
    (hb : ∀ rs ∈ idxs, ∀ r ∈ rs, 0 ≤ r → Int.toNat r < meta.length) :
    ∀ p ∈ allPairs dists idxs, 0 ≤ p.2 → Int.toNat p.2 < meta.length := by
  intro p hp h0
  obtain ⟨pd, pr⟩ := p
  rcases List.mem_flatten.mp hp with ⟨l, hl, hpl⟩
  rcases List.mem_map.mp hl with ⟨pair, hpair, hleq⟩
  have hmem : pr ∈ pair.2 := (List.of_mem_zip (hleq ▸ hpl)).2
  obtain ⟨l1, l2⟩ := pair
  have hl2 : l2 ∈ idxs := (List.of_mem_zip hpair).2
  exact hb l2 hl2 pr hmem h0

theorem search_isSome_of_bounds (meta : List String) (dists : List (List ℚ))
    (idxs : List (List Int)) (k : Nat)
    (hb : ∀ rs ∈ idxs, ∀ r ∈ rs, 0 ≤ r → Int.toNat r < meta.length) :
    (search meta dists idxs k).isSome = true := by
  have h1 := aggPairs_isSome meta (allPairs dists idxs)
    (allPairs_bound meta dists idxs hb) []
  have h2 := perCropTop_isSome meta idxs hb
  simp only [search]
  cases ha : aggPairs meta (allPairs dists idxs) [] with
  | none => rw [ha] at h1; exact absurd h1 (by simp)
  | some best =>
      cases hp : perCropTop meta idxs with
      | none => rw [hp] at h2; exact absurd h2 (by simp)
      | some pct => simp

/-- C3 counterexample: with a metadata table of two sets and `k = 1`, two
crops whose nearest neighbors hit set "A" (similarity 1) and set "B"
(similarity 9/10), the candidate list is truncated to the top `k = 1`
entries, so set "B" — although seen (its score list is nonempty) — has no
entry: the list does not contain exactly one entry per distinct set_id
seen. -/
theorem search_truncates_distinct_sets_counterexample :
    search ["A", "B"] [[0], [1/5]] [[0], [1]] 1 = some ([("A", 1)], ["A", "B"]) ∧
      scoresFor ["A", "B"] (allPairs [[0], [1/5]] [[0], [1]]) "B" = [9/10] := by
  constructor
  · norm_num [search, aggPairs, allPairs, perCropTop, updBest,
      cosine_from_l2_distance, sortDescBy, insertDescBy]
  · norm_num [scoresFor, allPairs, List.filterMap_cons, cosine_from_l2_distance]
    simp

/-- C3 amended: for every search result, the candidate list holds at most
one entry per distinct set_id, at most `k` entries in total, and each
entry's recorded score is exactly the maximum similarity observed for that
set_id over all (crop, returned-neighbor) pairs — not the mean or sum
(when more than `k` distinct set_ids are seen, only the top `k` survive
the truncation). -/
theorem search_score_is_max_per_set (meta : List String) (dists : List (List ℚ))
    (idxs : List (List Int)) (k : Nat) (cands : List (String × ℚ)) (pct : List String)
    (h : search meta dists idxs k = some (cands, pct)) :
    (cands.map Prod.fst).Nodup ∧ cands.length ≤ k ∧
      (cands.all (fun c =>
        decide (listMax (scoresFor meta (allPairs dists idxs) c.1) = some c.2))) = true := by
  simp only [search] at h
  cases ha : aggPairs meta (allPairs dists idxs) [] with
  | none =>
      rw [ha] at h
      exact Option.noConfusion h
  | some best =>
      rw [ha] at h
      cases hp : perCropTop meta idxs with
      | none =>
          rw [hp] at h
          exact Option.noConfusion h
      | some pct2 =>
          rw [hp] at h
          have hh := Option.some.inj h
          have hcands : cands = (sortDescBy (fun p => p.2) best).take k :=
            (congrArg Prod.fst hh).symm
          have hnb : (best.map Prod.fst).Nodup :=
            aggPairs_fst_nodup meta (allPairs dists idxs) [] best ha (by simp)
          have hperm := sortDescBy_perm (fun p : String × ℚ => p.2) best
          have hns : ((sortDescBy (fun p : String × ℚ => p.2) best).map Prod.fst).Nodup :=
            ((hperm.map Prod.fst).nodup_iff).mpr hnb
          refine ⟨?_, ?_, ?_⟩
          · rw [hcands, List.map_take]
            exact List.Nodup.sublist (List.take_sublist _ _) hns
          · rw [hcands]
            exact List.length_take_le _ _
          · rw [List.all_eq_true]
            intro c hc
            rw [hcands] at hc
            have hcb : c ∈ best := hperm.subset (List.take_subset _ _ hc)
            have hl := alookup_of_mem hnb hcb
            have hx := aggPairs_lookup meta (allPairs dists idxs) [] best ha c.1
            rw [hl] at hx
            simp only [alookup, optMax] at hx
            exact decide_eq_true hx.symm

/-- C3 witness: the amended statement evaluated on the concrete two-crop,
two-set search with `k = 2`: both sets survive, ids are distinct, each
score is the maximum for its set. -/
theorem search_score_is_max_per_set_witness :
    ([("A", (1 : ℚ)), ("B", 9/10)].map Prod.fst).Nodup ∧
      [("A", (1 : ℚ)), ("B", 9/10)].length ≤ 2 ∧
      ([("A", (1 : ℚ)), ("B", 9/10)].all (fun c =>
        decide (listMax (scoresFor ["A", "B"] (allPairs [[0], [1/5]] [[0], [1]]) c.1) =
          some c.2))) = true :=
  search_score_is_max_per_set ["A", "B"] [[0], [1/5]] [[0], [1]] 2
    [("A", 1), ("B", 9/10)] ["A", "B"]
    (by norm_num [search, aggPairs, allPairs, perCropTop, updBest,
      cosine_from_l2_distance, sortDescBy, insertDescBy])

/-- C6: `identify` returns a result (does not raise) exactly when the
requested game's index is loaded; with a loaded index it never errors —
regardless of the crop list — provided the index honors its contract that
every returned nonnegative row is a valid metadata row. -/
theorem identify_error_iff_not_loaded {γ ε : Type} (loaded : Bool) (crops : List γ)
    (embed : List γ → List ε)
    (indexSearch : List ε → Nat → List (List ℚ) × List (List Int))
    (meta : List String) (k : Nat)
    (hb : ∀ rs ∈ (indexSearch (embed crops) k).2, ∀ r ∈ rs,
      0 ≤ r → Int.toNat r < meta.length) :
    (identify loaded crops embed indexSearch meta k).isOk = loaded := by
  cases loaded with
  | false => rfl
  | true =>
      simp only [identify]
      rw [if_neg (by decide : ¬ (true = false))]
      by_cases hc : crops.isEmpty = true
      · rw [if_pos hc]
        rfl
      · rw [if_neg hc]
        have hsome := search_isSome_of_bounds meta (indexSearch (embed crops) k).1
          (indexSearch (embed crops) k).2 k hb
        cases hs : search meta (indexSearch (embed crops) k).1
            (indexSearch (embed crops) k).2 k with
        | none =>
            rw [hs] at hsome
            exact absurd hsome (by simp)
        | some pr =>
            obtain ⟨cands, pct⟩ := pr
            rfl

/-- C6 witness: with a loaded index, one crop and a well-formed index
response, `identify` succeeds. -/
theorem identify_error_iff_not_loaded_witness :
    (identify true [0] (fun _ => [()]) (fun _ _ => ([[0]], [[0]])) ["A"] 1).isOk = true :=
  identify_error_iff_not_loaded true [0] (fun _ => [()])
    (fun _ _ => ([[0]], [[0]])) ["A"] 1 (by decide)

/-- C10: negative neighbor rows (FAISS padding when fewer than `k`
neighbors exist) are skipped: the search never fails when all nonnegative
rows are in metadata range, the per-set aggregation is unchanged when all
negative-row pairs are removed, and every candidate set_id and per-crop
vote comes from the metadata table (nothing is fabricated from padding). -/
theorem negative_rows_skipped_and_safe (meta : List String) (dists : List (List ℚ))
    (idxs : List (List Int)) (k : Nat)
    (hb : ∀ rs ∈ idxs, ∀ r ∈ rs, 0 ≤ r → Int.toNat r < meta.length) :
    (search meta dists idxs k).isSome = true ∧
      aggPairs meta (allPairs dists idxs) [] =
        aggPairs meta ((allPairs dists idxs).filter (fun p => decide (0 ≤ p.2))) [] ∧
      (((search meta dists idxs k).getD ([], [])).1.all
        (fun c => meta.contains c.1)) = true ∧
      (((search meta dists idxs k).getD ([], [])).2.all
        (fun s => meta.contains s)) = true := by
  have h1 := search_isSome_of_bounds meta dists idxs k hb
  refine ⟨h1, aggPairs_filter_nonneg meta (allPairs dists idxs) [], ?_⟩
  cases hs : search meta dists idxs k with
  | none =>
      rw [hs] at h1
      exact absurd h1 (by simp)
  | some pr =>
      obtain ⟨cands, pct⟩ := pr
      have hinv := hs
      simp only [search] at hinv
      cases ha : aggPairs meta (allPairs dists idxs) [] with
      | none =>
          rw [ha] at hinv
          exact Option.noConfusion hinv
      | some best =>
          rw [ha] at hinv
          cases hp : perCropTop meta idxs with
          | none =>
              rw [hp] at hinv
              exact Option.noConfusion hinv
          | some pct2 =>
              rw [hp] at hinv
              have hh := Option.some.inj hinv
              have hcands : cands = (sortDescBy (fun p => p.2) best).take k :=
                (congrArg Prod.fst hh).symm
              have hpct : pct = pct2 := (congrArg Prod.snd hh).symm
              have hperm := sortDescBy_perm (fun p : String × ℚ => p.2) best
              constructor
              · rw [List.all_eq_true]
                intro c hc
                simp only [Option.getD_some] at hc
                rw [hcands] at hc
                have hcb : c ∈ best := hperm.subset (List.take_subset _ _ hc)
                have : c.1 ∈ meta := by
                  rcases aggPairs_fst_mem meta (allPairs dists idxs) [] best ha c.1
                      (List.mem_map_of_mem Prod.fst hcb) with h2 | h2
                  · simp at h2
                  · exact h2
                exact List.elem_iff.mpr this
              · rw [List.all_eq_true]
                intro s hsm
                simp only [Option.getD_some] at hsm
                rw [hpct] at hsm
                exact List.elem_iff.mpr (perCropTop_mem_meta meta idxs pct2 hp s hsm)

/-- C10 witness: a search where one crop has a padded second neighbor and
the other crop has no valid neighbor at all: the search succeeds and
nothing outside the metadata table appears. -/
theorem negative_rows_skipped_and_safe_witness :
    (search ["A"] [[0, 0], [0]] [[0, -1], [-1]] 2).isSome = true ∧
      aggPairs ["A"] (allPairs [[0, 0], [0]] [[0, -1], [-1]]) [] =
        aggPairs ["A"] ((allPairs [[0, 0], [0]] [[0, -1], [-1]]).filter
          (fun p => decide (0 ≤ p.2))) [] ∧
      (((search ["A"] [[0, 0], [0]] [[0, -1], [-1]] 2).getD ([], [])).1.all
        (fun c => (["A"] : List String).contains c.1)) = true ∧
      (((search ["A"] [[0, 0], [0]] [[0, -1], [-1]] 2).getD ([], [])).2.all
        (fun s => (["A"] : List String).contains s)) = true :=
  negative_rows_skipped_and_safe ["A"] [[0, 0], [0]] [[0, -1], [-1]] 2 (by decide)

/-- C4: for every non-empty candidate list (top entry `(s1, v1)`, rest of
the list, per-crop votes `pct`), with `top2` the runner-up score (0 if
absent), `margin = top1 - top2` and `stability` the fraction of per-crop
votes equal to the best set (1 if there are no votes): the confidence is
`max(clamp01((top1 - 0.15) * 1.2), clamp01(margin * 10))` and
`low_confidence` holds exactly when `top1 < 0.28` or `margin < 0.03` or
`stability < 0.60`. -/
theorem confidence_matches_spec_formula (s1 : String) (v1 : ℚ)
    (rest : List (String × ℚ)) (pct : List String) :
    (confidence ((s1, v1) :: rest) pct).1 =
      max (clamp01 ((v1 - 0.15) * 1.2))
        (clamp01 ((v1 - ((rest.head?.map Prod.snd).getD 0)) * 10)) ∧
    ((confidence ((s1, v1) :: rest) pct).2 = true ↔
      (v1 < 0.28 ∨ (v1 - ((rest.head?.map Prod.snd).getD 0)) < 0.03 ∨
        (if pct = [] then (1 : ℚ)
         else ((pct.countP (fun s => s = s1) : Nat) : ℚ) /
           ((pct.length : Nat) : ℚ)) < 0.60)) := by
  constructor
  · cases rest <;> rfl
  · cases rest <;>
      · simp only [confidence, decide_eq_true_eq]
        exact Iff.rfl
